import Mathlib

/-
Verification of the walking-network isochrone engine (notebook chapter 6).

The development shallowly embeds the five core components:
  * Graph Builder (`buildGraph`, from the notebook cell `_build_graph`):
    segments are split at their linear-referenced connectors into sub-edges,
    inserted in both directions into a flat directed-edge list.  The Python
    `defaultdict(list)` adjacency map is represented by that flat list plus
    the lookup `adj`, which preserves per-key insertion order.
  * Origin Locator (`findOrigin`, from `_find_origin`): a running-minimum
    scan of the connector table under the haversine distance.  The Python
    code seeds the running best with `(None, inf)`, so the first connector
    always replaces the seed; the embedding seeds with the first element.
    The haversine formula is transcendental, hence stated over ℝ.
  * Shortest-Path Search (`runDijkstra`, from `_run_dijkstra`): lazy-deletion
    Dijkstra with a budget cutoff.  The binary heap is modelled as a list
    with minimum extraction (`popMin`) under the same lexicographic
    (cost, node) order that Python tuples give `heapq`; float costs become ℚ.
  * Isochrone Band Builder (`isochroneBands`, from `_compute_isochrone`):
    the DuckDB convex-hull-and-area call is an abstract oracle
    `hull : List (ℚ × ℚ) → Option (String × ℚ)`, `none` standing for the
    caught exception; the band loop is the `filterMap` of `bandFor`.
  * Pedshed Ratio (`pedshed_ratio`, from `_pedshed` and the helper
    `pedshed_area_km2` in utils/overture.py), over ℝ because of π.
-/

namespace Chrono

/-- A directed sub-edge of the walking graph: the Python code executes
`graph[a].append((b, cost, sub_m))`, which is edge ⟨a, b, cost, sub_m⟩ here. -/
structure Edge where
  src : String
  dst : String
  cost : ℚ
  len : ℚ
deriving DecidableEq, Repr

/-- A raw connector reference of a segment row.  The source iterates a dynamic
list whose items may be dicts (with optional keys connector_id, id, at) or
other values; non-dict items are skipped by the isinstance check. -/
inductive ConnItem where
  | record (connector_id : Option String) (ident : Option String) (at_pos : Option ℚ)
  | other
deriving DecidableEq

/-- A segment row as the graph builder reads it: the connectors column (which
may be NULL) and the spheroid length in meters. -/
structure Segment where
  connectors : Option (List ConnItem)
  length_m : ℚ
deriving DecidableEq

/-- One item of the connector list, resolved as the source does:
c = item.get("connector_id", item.get("id", "")), l = item.get("at", 0.0),
kept only when c is a key of the connector-coordinate table. -/
def resolveItem (coords : List (String × ℚ × ℚ)) (it : ConnItem) : Option (ℚ × String) :=
  match it with
  | ConnItem.record cid ident at_pos =>
    let c := cid.getD (ident.getD "")
    if (coords.map Prod.fst).contains c then some (at_pos.getD 0, c) else none
  | ConnItem.other => none

/-- The order `sorted(zip(_lrs, _cids))` sorts by: Python tuple comparison,
lexicographic on (position, connector id). -/
def posLe (a b : ℚ × String) : Prop := a.1 < b.1 ∨ (a.1 = b.1 ∧ a.2 ≤ b.2)

instance posLe.instDecidable : DecidableRel posLe := fun a b =>
  decidable_of_iff (a.1 < b.1 ∨ (a.1 = b.1 ∧ a.2 ≤ b.2)) Iff.rfl

instance posLe.instIsTotal : IsTotal (ℚ × String) posLe where
  total a b := by
    rcases lt_trichotomy a.1 b.1 with h | h | h
    · exact Or.inl (Or.inl h)
    · rcases le_total a.2 b.2 with h2 | h2
      · exact Or.inl (Or.inr ⟨h, h2⟩)
      · exact Or.inr (Or.inr ⟨h.symm, h2⟩)
    · exact Or.inr (Or.inl h)

instance posLe.instIsTrans : IsTrans (ℚ × String) posLe where
  trans a b c hab hbc := by
    rcases hab with h1 | ⟨h1, h1s⟩
    · rcases hbc with h2 | ⟨h2, _⟩
      · exact Or.inl (lt_trans h1 h2)
      · exact Or.inl (h2 ▸ h1)
    · rcases hbc with h2 | ⟨h2, h2s⟩
      · exact Or.inl (h1 ▸ h2)
      · exact Or.inr ⟨h1.trans h2, le_trans h1s h2s⟩

/-- The per-segment (position, id) list after validation and sorting: empty
when the connectors column is NULL, has fewer than two raw items, or fewer
than two of them resolve in the connector table (those segments are skipped);
otherwise the resolved references sorted by `sorted(zip(_lrs, _cids))`. -/
def sortedRefs (coords : List (String × ℚ × ℚ)) (seg : Segment) : List (ℚ × String) :=
  match seg.connectors with
  | none => []
  | some items =>
    if items.length < 2 then []
    else
      let resolved := items.filterMap (resolveItem coords)
      if resolved.length < 2 then []
      else List.insertionSort posLe resolved

/-- An undirected sub-edge generated from one consecutive connector pair:
sub_m = length_m * span, cost = sub_m / speed (inserted in both directions). -/
structure Span where
  a : String
  b : String
  cost : ℚ
  sub_m : ℚ
deriving DecidableEq, Repr

/-- The body of the pair loop: a consecutive sorted pair yields a sub-edge
unless its position delta is ≤ 0 (`if _span <= 0: continue`). -/
def spanOfPair (length_m speed : ℚ) (pq : (ℚ × String) × (ℚ × String)) : Option Span :=
  if pq.1.1 < pq.2.1 then
    some ⟨pq.1.2, pq.2.2, length_m * (pq.2.1 - pq.1.1) / speed,
      length_m * (pq.2.1 - pq.1.1)⟩
  else none

/-- All undirected sub-edges one segment generates (consecutive sorted pairs
with positive position delta). -/
def segmentSpans (coords : List (String × ℚ × ℚ)) (speed : ℚ) (seg : Segment) :
    List Span :=
  let s := sortedRefs coords seg
  (s.zip s.tail).filterMap (spanOfPair seg.length_m speed)

/-- The directed edges one segment appends to the graph: each sub-edge in both
directions, in the source's append order. -/
def segmentEdges (coords : List (String × ℚ × ℚ)) (speed : ℚ) (seg : Segment) :
    List Edge :=
  (segmentSpans coords speed seg).flatMap
    (fun s => [⟨s.a, s.b, s.cost, s.sub_m⟩, ⟨s.b, s.a, s.cost, s.sub_m⟩])

/-- The whole walking graph as the flat list of directed edges appended over
all segment rows. -/
def buildGraph (coords : List (String × ℚ × ℚ)) (speed : ℚ) (segs : List Segment) :
    List Edge :=
  segs.flatMap (segmentEdges coords speed)

/-- The adjacency list of one node, `graph.get(node, [])`: all edges whose
source is the node, in insertion order, as (neighbor, cost, length) triples. -/
def adj (g : List Edge) (n : String) : List (String × ℚ × ℚ) :=
  (g.filter (fun e => e.src == n)).map (fun e => (e.dst, e.cost, e.len))

/-- Lexicographic order on heap entries (cost, node): the order `heapq` uses
on Python tuples. -/
def entryLE (a b : ℚ × String) : Bool :=
  decide (a.1 < b.1) || (decide (a.1 = b.1) && decide (a.2 ≤ b.2))

/-- Extraction of a minimal entry from the heap, returning it and the rest:
the observable behaviour of `heapq.heappop` on the modelled multiset. -/
def popMin : List (ℚ × String) → Option ((ℚ × String) × List (ℚ × String))
  | [] => none
  | x :: xs =>
    match popMin xs with
    | none => some (x, [])
    | some (m, rest) => if entryLE x m then some (x, xs) else some (m, x :: rest)

/-- The neighbor-push step of the Dijkstra loop: skip a visited neighbor,
push (cost + edge cost, neighbor) when the candidate is within budget. -/
def pushEntry (B c : ℚ) (visited' : List String) (t : String × ℚ × ℚ) :
    Option (ℚ × String) :=
  if t.1 ∈ visited' then none
  else if c + t.2.1 ≤ B then some (c + t.2.1, t.1) else none

/-- Termination measure helper: edges whose source is still unvisited. -/
def unvisitedWeight (g : List Edge) (visited : List String) : ℕ :=
  (g.filter (fun e => !(decide (e.src ∈ visited)))).length

/-- Popping from the empty heap, and only from it, yields nothing. -/
theorem popMin_none {l : List (ℚ × String)} : popMin l = none ↔ l = [] := by
  cases l with
  | nil => simp [popMin]
  | cons x xs =>
    simp only [popMin]
    rcases h : popMin xs with _ | ⟨m, rest⟩
    · simp
    · simp only
      split <;> simp

/-- Popping removes exactly one occurrence of the returned entry. -/
theorem popMin_perm {l : List (ℚ × String)} {m rest} (h : popMin l = some (m, rest)) :
    l.Perm (m :: rest) := by
  induction l generalizing m rest with
  | nil => simp [popMin] at h
  | cons x xs ih =>
    simp only [popMin] at h
    rcases h2 : popMin xs with _ | ⟨m2, rest2⟩
    · rw [h2] at h
      simp only [Option.some.injEq, Prod.mk.injEq] at h
      obtain ⟨rfl, rfl⟩ := h
      rw [popMin_none.mp h2]
    · rw [h2] at h
      simp only at h
      split at h
      · simp only [Option.some.injEq, Prod.mk.injEq] at h
        obtain ⟨rfl, rfl⟩ := h
        exact List.Perm.refl _
      · simp only [Option.some.injEq, Prod.mk.injEq] at h
        obtain ⟨rfl, rfl⟩ := h
        exact List.Perm.trans ((ih h2).cons x) (List.Perm.swap _ _ _)

/-- The popped entry has minimal cost among the heap entries. -/
theorem popMin_le {l : List (ℚ × String)} {m rest} (h : popMin l = some (m, rest)) :
    ∀ e ∈ l, m.1 ≤ e.1 := by
  induction l generalizing m rest with
  | nil => simp [popMin] at h
  | cons x xs ih =>
    simp only [popMin] at h
    rcases h2 : popMin xs with _ | ⟨m2, rest2⟩
    · rw [h2] at h
      simp only [Option.some.injEq, Prod.mk.injEq] at h
      obtain ⟨rfl, rfl⟩ := h
      intro e he
      rcases List.mem_cons.mp he with rfl | he2
      · exact le_refl _
      · rw [popMin_none.mp h2] at he2; simp at he2
    · rw [h2] at h
      simp only at h
      split at h
      case isTrue hle =>
        simp only [Option.some.injEq, Prod.mk.injEq] at h
        obtain ⟨rfl, rfl⟩ := h
        intro e he
        rcases List.mem_cons.mp he with rfl | he2
        · exact le_refl _
        · refine le_trans ?_ (ih h2 e he2)
          simp only [entryLE, Bool.or_eq_true, Bool.and_eq_true, decide_eq_true_eq] at hle
          rcases hle with hlt | ⟨heq, _⟩
          · exact le_of_lt hlt
          · exact le_of_eq heq
      case isFalse hle =>
        simp only [Option.some.injEq, Prod.mk.injEq] at h
        obtain ⟨rfl, rfl⟩ := h
        intro e he
        rcases List.mem_cons.mp he with rfl | he2
        · simp only [entryLE, Bool.or_eq_true, Bool.and_eq_true, decide_eq_true_eq,
            not_or, not_and] at hle
          exact le_of_not_lt hle.1
        · exact ih h2 e he2

/-- Popping shrinks the heap by one. -/
theorem popMin_length {l : List (ℚ × String)} {m rest} (h : popMin l = some (m, rest)) :
    l.length = rest.length + 1 := by
  simpa using (popMin_perm h).length_eq

/-- The popped entry was in the heap. -/
theorem popMin_mem {l : List (ℚ × String)} {m rest} (h : popMin l = some (m, rest)) :
    m ∈ l :=
  (popMin_perm h).symm.subset (List.mem_cons_self _ _)

/-- The remaining heap is contained in the original one. -/
theorem popMin_rest_subset {l : List (ℚ × String)} {m rest}
    (h : popMin l = some (m, rest)) : ∀ e ∈ rest, e ∈ l :=
  fun e he => (popMin_perm h).symm.subset (List.mem_cons_of_mem _ he)

/-- Growing the visited set never increases the unvisited weight. -/
theorem unvisitedWeight_mono (g : List Edge) (n : String) (visited : List String) :
    unvisitedWeight g (n :: visited) ≤ unvisitedWeight g visited := by
  apply List.Sublist.length_le
  apply List.monotone_filter_right
  intro a ha
  simp at ha ⊢
  exact fun h => ha.2 h

/-- Visiting an unvisited node removes exactly its outgoing edges from the
unvisited weight. -/
theorem unvisitedWeight_split (g : List Edge) (n : String) (visited : List String)
    (hv : n ∉ visited) :
    unvisitedWeight g visited =
      unvisitedWeight g (n :: visited) + (g.filter (fun e => e.src == n)).length := by
  unfold unvisitedWeight
  induction g with
  | nil => simp
  | cons e g ih =>
    rcases eq_or_ne e.src n with hn | hn
    · rw [List.filter_cons, List.filter_cons, List.filter_cons]
      have h1 : (!(decide (e.src ∈ visited))) = true := by
        simp only [Bool.not_eq_true', decide_eq_false_iff_not]
        rw [hn]; exact hv
      have h2 : (!(decide (e.src ∈ n :: visited))) = false := by
        simp only [Bool.not_eq_false', decide_eq_true_eq]
        rw [hn]; exact List.mem_cons_self _ _
      have h3 : (e.src == n) = true := by simp [hn]
      rw [h1, h2, h3]
      simp only [if_true, Bool.false_eq_true, if_false, List.length_cons]
      omega
    · rw [List.filter_cons, List.filter_cons, List.filter_cons]
      have h2 : (!(decide (e.src ∈ n :: visited))) = (!(decide (e.src ∈ visited))) := by
        simp [List.mem_cons, hn]
      have h3 : (e.src == n) = false := by simp [hn]
      rw [h2, h3]
      by_cases hm : e.src ∈ visited
      · have h4 : (!(decide (e.src ∈ visited))) = false := by simp [hm]
        rw [h4]
        simp only [Bool.false_eq_true, if_false]
        exact ih
      · have h4 : (!(decide (e.src ∈ visited))) = true := by simp [hm]
        rw [h4]
        simp only [if_true, Bool.false_eq_true, if_false, List.length_cons]
        omega

/-- The pushed entries are at most the expanded node's outgoing edges. -/
theorem pushes_length_le (g : List Edge) (B c : ℚ) (n : String)
    (visited' : List String) :
    ((adj g n).filterMap (pushEntry B c visited')).length ≤
      (g.filter (fun e => e.src == n)).length := by
  have h1 := List.length_filterMap_le (pushEntry B c visited') (adj g n)
  have h2 : (adj g n).length = (g.filter (fun e => e.src == n)).length := by simp [adj]
  omega

/-- The Dijkstra loop of `_run_dijkstra`: pop the minimum, skip if visited
(lazy deletion), skip expansion if over budget, otherwise record the cost and
push the in-budget unvisited neighbors.  State is (queue, visited, result). -/
def dloop (g : List Edge) (B : ℚ) (pq : List (ℚ × String)) (visited : List String)
    (reach : List (String × ℚ)) : List (String × ℚ) × List String :=
  match hp : popMin pq with
  | none => (reach, visited)
  | some ((c, n), rest) =>
    if hv : n ∈ visited then dloop g B rest visited reach
    else
      if B < c then dloop g B rest (n :: visited) reach
      else
        dloop g B (rest ++ (adj g n).filterMap (pushEntry B c (n :: visited)))
          (n :: visited) (reach ++ [(n, c)])
  termination_by 2 * unvisitedWeight g visited + pq.length
  decreasing_by
  · have hlen := popMin_length hp
    omega
  · have hlen := popMin_length hp
    have hmono := unvisitedWeight_mono g n visited
    omega
  · have hlen := popMin_length hp
    have hsplit := unvisitedWeight_split g n visited hv
    have hpush := pushes_length_le g B c n (n :: visited)
    simp only [List.length_append]
    omega

/-- The whole search: queue seeded with (0, origin), empty visited set and
result map; returns (reachable map as insertion-ordered pairs, visited list). -/
def runDijkstra (g : List Edge) (o : String) (B : ℚ) :
    List (String × ℚ) × List String :=
  dloop g B [(0, o)] [] []

/-- Dict lookup on the insertion-ordered result map. -/
def lookupCost (reach : List (String × ℚ)) (v : String) : Option ℚ :=
  (reach.find? (fun p => p.1 == v)).map Prod.snd

/-- Walks in the embedded graph: `HasPath g o v c` holds when some walk from
the origin o to v has cumulative cost c. -/
inductive HasPath (g : List Edge) (o : String) : String → ℚ → Prop where
  | nil : HasPath g o o 0
  | cons {u : String} {cu : ℚ} {t : String × ℚ × ℚ} :
      HasPath g o u cu → t ∈ adj g u → HasPath g o t.1 (cu + t.2.1)

/-- The Dijkstra loop invariant: queue entries are path costs within budget,
recorded costs are minimal path costs within budget, the recorded keys are the
visited nodes, and every graph edge leaving a recorded node either reaches a
visited node, has a queue entry at most its relaxed cost, or exceeds budget. -/
structure DInv (g : List Edge) (o : String) (B : ℚ) (pq : List (ℚ × String))
    (visited : List String) (reach : List (String × ℚ)) : Prop where
  pq_path : ∀ e ∈ pq, HasPath g o e.2 e.1
  pq_le : ∀ e ∈ pq, e.1 ≤ B
  reach_path : ∀ p ∈ reach, HasPath g o p.1 p.2
  reach_min : ∀ p ∈ reach, ∀ c', HasPath g o p.1 c' → p.2 ≤ c'
  reach_le : ∀ p ∈ reach, p.2 ≤ B
  keys_vis : reach.map Prod.fst = visited.reverse
  vis_nodup : visited.Nodup
  frontier : ∀ p ∈ reach, ∀ t ∈ adj g p.1, t.1 ∉ visited →
    (∃ c', (c', t.1) ∈ pq ∧ c' ≤ p.2 + t.2.1) ∨ B < p.2 + t.2.1
  origin_vis : o ∈ visited ∨ (0, o) ∈ pq

/-- The weaker invariant needed for the diagnostic count: queue entries are
within budget and recorded keys are the visited nodes. -/
structure QInv (B : ℚ) (pq : List (ℚ × String)) (visited : List String)
    (reach : List (String × ℚ)) : Prop where
  pq_le : ∀ e ∈ pq, e.1 ≤ B
  keys_vis : reach.map Prod.fst = visited.reverse

/-- The specification of the search result: lookup answers are minimal path
costs within budget, every node with a path cost within budget is present,
and keys are unique (the result is a map). -/
def ReachGood (g : List Edge) (o : String) (B : ℚ) (reach : List (String × ℚ)) :
    Prop :=
  (∀ v cv, lookupCost reach v = some cv →
    HasPath g o v cv ∧ (∀ c', HasPath g o v c' → cv ≤ c') ∧ cv ≤ B)
  ∧ (∀ v cv, HasPath g o v cv → cv ≤ B → (lookupCost reach v).isSome)
  ∧ (reach.map Prod.fst).Nodup

/-- Conclusion of claim C1: the reachable map of the search is exactly the
minimal-cost map restricted to the budget. -/
def C1Concl (g : List Edge) (o : String) (B : ℚ) : Prop :=
  ReachGood g o B (runDijkstra g o B).1

/-- Conclusion of claim C5: budget monotonicity of the reachable key set. -/
def C5Concl (g : List Edge) (o : String) (B1 B2 : ℚ) : Prop :=
  ∀ v, (lookupCost (runDijkstra g o B1).1 v).isSome →
    (lookupCost (runDijkstra g o B2).1 v).isSome

/-- Conclusion of claim C10: the diagnostic explored count (size of the
visited set) equals the number of reachable nodes, and the visited nodes are
exactly the recorded keys. -/
def C10Concl (g : List Edge) (o : String) (B : ℚ) : Prop :=
  ((runDijkstra g o B).2).length = ((runDijkstra g o B).1).length ∧
  (∀ n, n ∈ (runDijkstra g o B).2 ↔ n ∈ ((runDijkstra g o B).1).map Prod.fst)

/-- Python `math.radians`. -/
noncomputable def radiansOf (d : ℝ) : ℝ := d * Real.pi / 180

/-- Python `math.atan2` over the reals. -/
noncomputable def atan2 (y x : ℝ) : ℝ :=
  if 0 < x then Real.arctan (y / x)
  else if x < 0 then
    (if 0 ≤ y then Real.arctan (y / x) + Real.pi else Real.arctan (y / x) - Real.pi)
  else
    (if 0 < y then Real.pi / 2 else if y < 0 then -(Real.pi / 2) else 0)

/-- The `_haversine_m` helper: great-circle distance with Earth radius
6,371,000 m. -/
noncomputable def haversineM (lat1 lng1 lat2 lng2 : ℝ) : ℝ :=
  let dlat := radiansOf (lat2 - lat1)
  let dlng := radiansOf (lng2 - lng1)
  let a := Real.sin (dlat / 2) ^ 2 +
    Real.cos (radiansOf lat1) * Real.cos (radiansOf lat2) * Real.sin (dlng / 2) ^ 2
  6371000 * 2 * atan2 (Real.sqrt a) (Real.sqrt (1 - a))

/-- The running-minimum scan of `_find_origin`, generic in the distance
function: a candidate replaces the best exactly when strictly closer.
Comparison of real distances is classical, hence noncomputable. -/
noncomputable def findOriginGo (d : String × ℝ × ℝ → ℝ) (best : String × ℝ) :
    List (String × ℝ × ℝ) → String × ℝ
  | [] => best
  | c :: rest =>
    if d c < best.2 then findOriginGo d (c.1, d c) rest else findOriginGo d best rest

/-- The scan seeded as the source does: the initial best distance is +inf, so
the first connector always becomes the running best; an empty table leaves the
origin as None (the subsequent dict lookup then fails). -/
noncomputable def findOriginAux (d : String × ℝ × ℝ → ℝ) :
    List (String × ℝ × ℝ) → Option (String × ℝ)
  | [] => none
  | c :: rest => some (findOriginGo d (c.1, d c) rest)

/-- The Origin Locator: nearest connector to the query point under haversine
distance, together with the snap distance. -/
noncomputable def findOrigin (qlat qlng : ℝ) (table : List (String × ℝ × ℝ)) :
    Option (String × ℝ) :=
  findOriginAux (fun c => haversineM qlat qlng c.2.1 c.2.2) table

/-- A reachable point as handed to the band builder: id, coordinates and
cumulative cost in seconds. -/
structure RPoint where
  id : String
  lat : ℚ
  lng : ℚ
  cost_s : ℚ
deriving DecidableEq, Repr

/-- An isochrone band record, fields as the source dict. -/
structure Band where
  band_min : ℤ
  band_s : ℤ
  node_count : ℕ
  area_m2 : ℚ
  area_km2 : ℚ
  area_ha : ℚ
  geojson : Option String
deriving DecidableEq, Repr

/-- Python `int()` on a rational: truncation toward zero. -/
def ratTrunc (q : ℚ) : ℤ := q.num.tdiv q.den

/-- The processed threshold list: the default bands [5, 10, 15, 20] filtered
to the budget, with the budget's own minute value int(B/60) inserted in order
when missing. -/
def bandList (B : ℚ) : List ℤ :=
  let base := ([5, 10, 15, 20] : List ℤ).filter (fun b => decide ((b * 60 : ℤ) ≤ B))
  let bm := ratTrunc (B / 60)
  if bm ∈ base then base else List.insertionSort (fun a b => a ≤ b) (base ++ [bm])

/-- The reachable points selected for one band: cost at most threshold × 60. -/
def bandSel (pts : List RPoint) (bm : ℤ) : List RPoint :=
  pts.filter (fun p => decide (p.cost_s ≤ (bm * 60 : ℤ)))

/-- The body of the band loop: fewer than 3 selected points yield no record;
otherwise the geometry oracle is consulted on the (lng, lat) coordinates, a
failure (`none`, the caught exception) still yields a record with null
polygon and zero areas. -/
def bandFor (hull : List (ℚ × ℚ) → Option (String × ℚ)) (pts : List RPoint)
    (bm : ℤ) : Option Band :=
  let sel := bandSel pts bm
  if sel.length < 3 then none
  else
    match hull (sel.map (fun p => (p.lng, p.lat))) with
    | some (gj, am) => some ⟨bm, bm * 60, sel.length, am, am / 1000000, am / 10000, some gj⟩
    | none => some ⟨bm, bm * 60, sel.length, 0, 0, 0, none⟩

/-- The ordered band list: the loop appends exactly the records `bandFor`
produces, in threshold order. -/
def isochroneBands (hull : List (ℚ × ℚ) → Option (String × ℚ)) (pts : List RPoint)
    (B : ℚ) : List Band :=
  (bandList B).filterMap (bandFor hull pts)

/-- The isochrone area fed to the pedshed ratio: the last band's area_km2, or
0.0 when no band was produced. -/
def isochroneAreaKm2 (hull : List (ℚ × ℚ) → Option (String × ℚ)) (pts : List RPoint)
    (B : ℚ) : ℚ :=
  ((isochroneBands hull pts B).getLast?.map Band.area_km2).getD 0

/-- utils/overture.py pedshed_area_m2: area of the theoretical circle. -/
noncomputable def pedshed_area_m2 (r : ℝ) : ℝ := Real.pi * r ^ 2

/-- utils/overture.py pedshed_area_km2. -/
noncomputable def pedshed_area_km2 (r : ℝ) : ℝ := pedshed_area_m2 r / 1000000

/-- The `_pedshed` cell: ratio = iso / circle when the circle area is
positive, else 0.0. -/
noncomputable def pedshed_ratio (iso circle : ℝ) : ℝ :=
  if 0 < circle then iso / circle else 0

/-- Monotonicity contract of the geometry service: a larger point set never
reports a smaller area. -/
def HullMono (hull : List (ℚ × ℚ) → Option (String × ℚ)) : Prop :=
  ∀ l1 l2 p1 a1 p2 a2, l1.Sublist l2 → hull l1 = some (p1, a1) →
    hull l2 = some (p2, a2) → a1 ≤ a2

/-- The pairwise relation the band list satisfies unconditionally: strictly
increasing thresholds, growing node selections, non-decreasing node counts,
and non-decreasing areas whenever both geometry calls succeeded under a
monotone geometry service. -/
def bandRel (hull : List (ℚ × ℚ) → Option (String × ℚ)) (pts : List RPoint)
    (x y : Band) : Prop :=
  x.band_min < y.band_min ∧
  (∀ p ∈ bandSel pts x.band_min, p ∈ bandSel pts y.band_min) ∧
  x.node_count ≤ y.node_count ∧
  (HullMono hull → x.geojson.isSome → y.geojson.isSome → x.area_m2 ≤ y.area_m2)

/-- Conclusion of claim C9 (amended): the produced band list has strictly
increasing thresholds, superset node sets, node counts that are the selected
set sizes and non-decreasing, and non-decreasing areas provided every
produced band's geometry call succeeded and the service is monotone. -/
def C9Concl (hull : List (ℚ × ℚ) → Option (String × ℚ)) (pts : List RPoint)
    (B : ℚ) : Prop :=
  List.Pairwise (fun x y : Band => x.band_min < y.band_min) (isochroneBands hull pts B) ∧
  (∀ b ∈ isochroneBands hull pts B, b.node_count = (bandSel pts b.band_min).length) ∧
  List.Pairwise (fun x y : Band => ∀ p ∈ bandSel pts x.band_min,
    p ∈ bandSel pts y.band_min) (isochroneBands hull pts B) ∧
  List.Pairwise (fun x y : Band => x.node_count ≤ y.node_count)
    (isochroneBands hull pts B) ∧
  (HullMono hull → (∀ b ∈ isochroneBands hull pts B, b.geojson.isSome) →
    List.Pairwise (fun x y : Band => x.area_m2 ≤ y.area_m2) (isochroneBands hull pts B))

/-- Conclusion of claim C7: a threshold whose selection has fewer than 3
points produces no record; a geometry failure on a selection of at least 3
points still produces a record with null polygon and zero area; and every
other threshold's record is computed independently of it. -/
def C7Concl (hull : List (ℚ × ℚ) → Option (String × ℚ)) (pts : List RPoint)
    (B : ℚ) (bm : ℤ) : Prop :=
  ((bandSel pts bm).length < 3 →
    ∀ b ∈ isochroneBands hull pts B, b.band_min ≠ bm) ∧
  (¬ (bandSel pts bm).length < 3 →
    hull ((bandSel pts bm).map (fun p => (p.lng, p.lat))) = none →
    ∃ b ∈ isochroneBands hull pts B, b.band_min = bm ∧ b.geojson = none ∧
      b.area_m2 = 0 ∧ b.area_km2 = 0 ∧ b.area_ha = 0) ∧
  (∀ bm2 ∈ bandList B, bandFor hull pts bm2 = none →
    ∀ b ∈ isochroneBands hull pts B, b.band_min ≠ bm2) ∧
  (∀ bm2 ∈ bandList B, ∀ b, bandFor hull pts bm2 = some b →
    b ∈ isochroneBands hull pts B)

/-- Conclusion of claim C8: the pedshed ratio is the last (largest-threshold)
band's km² area divided by the circle area when both exist, 0 when the circle
area is 0 or no band exists, and non-negative under the geometry-service
contract that reported areas are non-negative. -/
def C8Concl (hull : List (ℚ × ℚ) → Option (String × ℚ)) (pts : List RPoint)
    (B : ℚ) (r : ℝ) : Prop :=
  (isochroneBands hull pts B = [] →
    pedshed_ratio ((isochroneAreaKm2 hull pts B : ℚ) : ℝ) (pedshed_area_km2 r) = 0) ∧
  (pedshed_area_km2 r = 0 →
    pedshed_ratio ((isochroneAreaKm2 hull pts B : ℚ) : ℝ) (pedshed_area_km2 r) = 0) ∧
  (isochroneBands hull pts B ≠ [] →
    ∃ bmax, (isochroneBands hull pts B).getLast? = some bmax ∧
      (∀ b ∈ isochroneBands hull pts B, b.band_min ≤ bmax.band_min) ∧
      (0 < pedshed_area_km2 r →
        pedshed_ratio ((isochroneAreaKm2 hull pts B : ℚ) : ℝ) (pedshed_area_km2 r) =
          ((bmax.area_km2 : ℚ) : ℝ) / pedshed_area_km2 r)) ∧
  ((∀ pl gj am, hull pl = some (gj, am) → 0 ≤ am) →
    0 ≤ pedshed_ratio ((isochroneAreaKm2 hull pts B : ℚ) : ℝ) (pedshed_area_km2 r))

/-- Connector table for the concrete graph-builder inputs below. -/
def cexCoords : List (String × ℚ × ℚ) := [("A", 0, 0), ("B", 0, 0)]

/-- A segment whose resolved positions span 0 to 1/2 only. -/
def cexSegHalf : Segment :=
  ⟨some [ConnItem.record (some "A") none (some 0),
         ConnItem.record (some "B") none (some (1/2))], 100⟩

/-- A segment listing the same connector at two distinct positions. -/
def cexSegLoop : Segment :=
  ⟨some [ConnItem.record (some "A") none (some 0),
         ConnItem.record (some "A") none (some (1/2))], 100⟩

/-- A zero-length segment with two distinct resolved connectors. -/
def cexSegZero : Segment :=
  ⟨some [ConnItem.record (some "A") none (some 0),
         ConnItem.record (some "B") none (some 1)], 0⟩

/-- A well-formed segment (positive length, endpoints at 0 and 1). -/
def wSeg : Segment :=
  ⟨some [ConnItem.record (some "A") none (some 0),
         ConnItem.record (some "B") none (some 1)], 100⟩

/-- A small concrete graph for the search witnesses. -/
def wDij : List Edge := [⟨"A", "B", 2, 3⟩, ⟨"B", "A", 2, 3⟩]

/-- A geometry oracle that fails on point sets larger than 3: exercises the
failure path of the band builder. -/
def cexHull : List (ℚ × ℚ) → Option (String × ℚ) :=
  fun l => if l.length ≤ 3 then some ("hull", 100) else none

/-- Reachable points giving 3 nodes within 5 minutes and 4 within 10. -/
def cexPts : List RPoint :=
  [⟨"a", 0, 0, 0⟩, ⟨"b", 0, 1, 100⟩, ⟨"c", 1, 0, 200⟩, ⟨"d", 1, 1, 400⟩]

/-- An always-failing geometry oracle, for the C7 witness. -/
def whull : List (ℚ × ℚ) → Option (String × ℚ) := fun _ => none

/-- An empty reachable set, for the C7 witness. -/
def wpts : List RPoint := []

/-- An adjacency triple comes from an edge of the graph. -/
theorem adj_cost_nonneg {g : List Edge} (hg : ∀ e ∈ g, 0 ≤ e.cost) {u : String}
    {t : String × ℚ × ℚ} (ht : t ∈ adj g u) : 0 ≤ t.2.1 := by
  simp only [adj, List.mem_map, List.mem_filter] at ht
  obtain ⟨e, ⟨he, _⟩, rfl⟩ := ht
  exact hg e he

/-- Over a graph with non-negative edge costs, every walk cost is non-negative. -/
theorem hasPath_nonneg {g : List Edge} (hg : ∀ e ∈ g, 0 ≤ e.cost) {o v : String}
    {c : ℚ} (h : HasPath g o v c) : 0 ≤ c := by
  induction h with
  | nil => exact le_refl 0
  | cons hu ht ih => exact add_nonneg ih (adj_cost_nonneg hg ht)

/-- Characterization of the entries pushed when expanding node n at cost c. -/
theorem mem_pushes {g : List Edge} {n : String} {B c : ℚ} {visited' : List String}
    {e : ℚ × String} :
    e ∈ (adj g n).filterMap (pushEntry B c visited') ↔
      ∃ t ∈ adj g n, t.1 ∉ visited' ∧ c + t.2.1 ≤ B ∧ e = (c + t.2.1, t.1) := by
  rw [List.mem_filterMap]
  constructor
  · rintro ⟨t, ht, hf⟩
    refine ⟨t, ht, ?_⟩
    unfold pushEntry at hf
    split at hf
    · exact absurd hf (by simp)
    · split at hf
      · simp only [Option.some.injEq] at hf
        exact ⟨by assumption, by assumption, hf.symm⟩
      · exact absurd hf (by simp)
  · rintro ⟨t, ht, hnv, hle, rfl⟩
    exact ⟨t, ht, by unfold pushEntry; rw [if_neg hnv, if_pos hle]⟩

/-- Dijkstra's key step: under the loop invariant, the minimal queue cost is a
lower bound on the cost of every walk ending outside the visited set. -/
theorem pop_le_of_unvisited {g : List Edge} {o : String} {B : ℚ}
    {pq : List (ℚ × String)} {visited : List String} {reach : List (String × ℚ)}
    {c : ℚ} (hg : ∀ e ∈ g, 0 ≤ e.cost) (inv : DInv g o B pq visited reach)
    (hmin : ∀ e ∈ pq, c ≤ e.1) (hcB : c ≤ B) :
    ∀ {v : String} {cv : ℚ}, HasPath g o v cv → v ∉ visited → c ≤ cv := by
  intro v cv h
  induction h with
  | nil =>
    intro ho
    rcases inv.origin_vis with hvis | hq
    · exact absurd hvis ho
    · exact hmin _ hq
  | cons hu ht ih =>
    rename_i u cu t
    intro hnv
    by_cases huv : u ∈ visited
    · have hukeys : u ∈ reach.map Prod.fst := by
        rw [inv.keys_vis, List.mem_reverse]; exact huv
      obtain ⟨p, hpmem, hpfst⟩ := List.mem_map.mp hukeys
      have hdu : p.2 ≤ cu := inv.reach_min p hpmem cu (hpfst ▸ hu)
      have htp : t ∈ adj g p.1 := hpfst ▸ ht
      rcases inv.frontier p hpmem t htp hnv with ⟨c', hc'mem, hc'le⟩ | hover
      · calc c ≤ c' := hmin _ hc'mem
          _ ≤ p.2 + t.2.1 := hc'le
          _ ≤ cu + t.2.1 := by linarith
      · have hlt : c < cu + t.2.1 := by
          have h1 : p.2 + t.2.1 ≤ cu + t.2.1 := by linarith
          linarith
        exact le_of_lt hlt
    · have hc : c ≤ cu := ih huv
      have he : 0 ≤ t.2.1 := adj_cost_nonneg hg ht
      linarith

/-- Skipping an already-visited pop preserves the loop invariant. -/
theorem dinv_skip {g : List Edge} {o : String} {B : ℚ} {pq : List (ℚ × String)}
    {visited : List String} {reach : List (String × ℚ)} {c : ℚ} {n : String}
    {rest : List (ℚ × String)}
    (inv : DInv g o B pq visited reach) (hp : popMin pq = some ((c, n), rest))
    (hv : n ∈ visited) : DInv g o B rest visited reach where
  pq_path e he := inv.pq_path e (popMin_rest_subset hp e he)
  pq_le e he := inv.pq_le e (popMin_rest_subset hp e he)
  reach_path := inv.reach_path
  reach_min := inv.reach_min
  reach_le := inv.reach_le
  keys_vis := inv.keys_vis
  vis_nodup := inv.vis_nodup
  frontier p hpm t ht hnv := by
    rcases inv.frontier p hpm t ht hnv with ⟨c', hc'mem, hc'le⟩ | hover
    · left
      refine ⟨c', ?_, hc'le⟩
      have hmem : (c', t.1) ∈ (c, n) :: rest := (popMin_perm hp).mem_iff.mp hc'mem
      rcases List.mem_cons.mp hmem with heq | hmem2
      · exfalso
        have : t.1 = n := congrArg Prod.snd heq
        exact hnv (this ▸ hv)
      · exact hmem2
    · right; exact hover
  origin_vis := by
    rcases inv.origin_vis with hvis | hq
    · left; exact hvis
    · have hmem : (0, o) ∈ (c, n) :: rest := (popMin_perm hp).mem_iff.mp hq
      rcases List.mem_cons.mp hmem with heq | hmem2
      · left
        have : o = n := congrArg Prod.snd heq
        exact this ▸ hv
      · right; exact hmem2

/-- Expanding a freshly popped in-budget node preserves the loop invariant. -/
theorem dinv_expand {g : List Edge} {o : String} {B : ℚ} {pq : List (ℚ × String)}
    {visited : List String} {reach : List (String × ℚ)} {c : ℚ} {n : String}
    {rest : List (ℚ × String)}
    (hg : ∀ e ∈ g, 0 ≤ e.cost)
    (inv : DInv g o B pq visited reach) (hp : popMin pq = some ((c, n), rest))
    (hv : n ∉ visited) (hb : ¬ B < c) :
    DInv g o B (rest ++ (adj g n).filterMap (pushEntry B c (n :: visited)))
      (n :: visited) (reach ++ [(n, c)]) := by
  have hcB : c ≤ B := inv.pq_le _ (popMin_mem hp)
  have hpathn : HasPath g o n c := inv.pq_path _ (popMin_mem hp)
  have hminq := popMin_le hp
  have hkey : ∀ {v : String} {cv : ℚ}, HasPath g o v cv → v ∉ visited → c ≤ cv :=
    fun h hnv => pop_le_of_unvisited hg inv (fun e he => hminq e he) hcB h hnv
  refine ⟨?_, ?_, ?_, ?_, ?_, ?_, ?_, ?_, ?_⟩
  · intro e he
    rcases List.mem_append.mp he with hr | hpush
    · exact inv.pq_path e (popMin_rest_subset hp e hr)
    · obtain ⟨t, ht, _, _, rfl⟩ := mem_pushes.mp hpush
      exact HasPath.cons hpathn ht
  · intro e he
    rcases List.mem_append.mp he with hr | hpush
    · exact inv.pq_le e (popMin_rest_subset hp e hr)
    · obtain ⟨t, ht, _, hle, rfl⟩ := mem_pushes.mp hpush
      exact hle
  · intro p hpm
    rcases List.mem_append.mp hpm with hold | hnew
    · exact inv.reach_path p hold
    · simp only [List.mem_singleton] at hnew
      subst hnew
      exact hpathn
  · intro p hpm c' hc'
    rcases List.mem_append.mp hpm with hold | hnew
    · exact inv.reach_min p hold c' hc'
    · simp only [List.mem_singleton] at hnew
      subst hnew
      exact hkey hc' hv
  · intro p hpm
    rcases List.mem_append.mp hpm with hold | hnew
    · exact inv.reach_le p hold
    · simp only [List.mem_singleton] at hnew
      subst hnew
      exact hcB
  · rw [List.map_append, inv.keys_vis, List.reverse_cons]
    rfl
  · exact List.nodup_cons.mpr ⟨hv, inv.vis_nodup⟩
  · intro p hpm t ht hnv
    have hne : t.1 ≠ n := fun h => hnv (h ▸ List.mem_cons_self n visited)
    have hnv0 : t.1 ∉ visited := fun h => hnv (List.mem_cons_of_mem n h)
    rcases List.mem_append.mp hpm with hold | hnew
    · rcases inv.frontier p hold t ht hnv0 with ⟨c', hc'mem, hc'le⟩ | hover
      · left
        refine ⟨c', ?_, hc'le⟩
        have hmem : (c', t.1) ∈ (c, n) :: rest := (popMin_perm hp).mem_iff.mp hc'mem
        rcases List.mem_cons.mp hmem with heq | hmem2
        · exact absurd (congrArg Prod.snd heq) hne
        · exact List.mem_append_left _ hmem2
      · right; exact hover
    · simp only [List.mem_singleton] at hnew
      subst hnew
      by_cases hcb : c + t.2.1 ≤ B
      · left
        exact ⟨c + t.2.1,
          List.mem_append_right _ (mem_pushes.mpr ⟨t, ht, hnv, hcb, rfl⟩), le_refl _⟩
      · right; exact lt_of_not_ge hcb
  · rcases inv.origin_vis with hvis | hq
    · left; exact List.mem_cons_of_mem n hvis
    · have hmem : (0, o) ∈ (c, n) :: rest := (popMin_perm hp).mem_iff.mp hq
      rcases List.mem_cons.mp hmem with heq | hmem2
      · left
        have : o = n := congrArg Prod.snd heq
        exact this ▸ List.mem_cons_self n visited
      · right; exact List.mem_append_left _ hmem2

/-- When the queue is exhausted, the invariant yields the full specification
of the result map. -/
theorem reachGood_of_final {g : List Edge} {o : String} {B : ℚ}
    {visited : List String} {reach : List (String × ℚ)}
    (hg : ∀ e ∈ g, 0 ≤ e.cost) (inv : DInv g o B [] visited reach) :
    ReachGood g o B reach := by
  have complete : ∀ v cv, HasPath g o v cv → cv ≤ B → v ∈ reach.map Prod.fst := by
    intro v cv h
    induction h with
    | nil =>
      intro _
      rcases inv.origin_vis with hvis | hq
      · rw [inv.keys_vis, List.mem_reverse]; exact hvis
      · simp at hq
    | cons hu ht ih =>
      rename_i u cu t
      intro hle
      have hec : 0 ≤ t.2.1 := adj_cost_nonneg hg ht
      have hcu : cu ≤ B := by linarith
      have hukeys := ih hcu
      obtain ⟨p, hpmem, hpfst⟩ := List.mem_map.mp hukeys
      by_cases htv : t.1 ∈ visited
      · rw [inv.keys_vis, List.mem_reverse]; exact htv
      · rcases inv.frontier p hpmem t (hpfst ▸ ht) htv with ⟨c', hc'mem, _⟩ | hover
        · simp at hc'mem
        · exfalso
          have hdu : p.2 ≤ cu := inv.reach_min p hpmem cu (hpfst ▸ hu)
          linarith
  refine ⟨?_, ?_, ?_⟩
  · intro v cv hl
    unfold lookupCost at hl
    rcases hfind : reach.find? (fun p => p.1 == v) with _ | p
    · rw [hfind] at hl; simp at hl
    · rw [hfind] at hl
      simp only [Option.map_some', Option.some.injEq] at hl
      have hpm : p ∈ reach := List.mem_of_find?_eq_some hfind
      have hpv : p.1 = v := by
        have := List.find?_some hfind
        simpa using this
      have hp2 : p.2 = cv := hl
      refine ⟨?_, ?_, ?_⟩
      · exact hp2 ▸ hpv ▸ inv.reach_path p hpm
      · intro c' hc'
        exact hp2 ▸ inv.reach_min p hpm c' (hpv.symm ▸ hc')
      · exact hp2 ▸ inv.reach_le p hpm
  · intro v cv h hle
    have hvk := complete v cv h hle
    obtain ⟨p, hpmem, hpfst⟩ := List.mem_map.mp hvk
    unfold lookupCost
    rw [Option.isSome_map']
    rw [List.find?_isSome]
    exact ⟨p, hpmem, by simp [hpfst]⟩
  · rw [inv.keys_vis]
    exact List.nodup_reverse.mpr inv.vis_nodup

/-- The loop carries the invariant to its final state. -/
theorem dloop_reachGood {g : List Edge} {o : String} {B : ℚ}
    (hg : ∀ e ∈ g, 0 ≤ e.cost) :
    ∀ pq visited reach, DInv g o B pq visited reach →
      ReachGood g o B (dloop g B pq visited reach).1 := by
  intro pq visited reach
  induction pq, visited, reach using dloop.induct g B with
  | case1 pq visited reach hp =>
    intro inv
    rw [show dloop g B pq visited reach = (reach, visited) from by rw [dloop.eq_def, hp]]
    exact reachGood_of_final hg (popMin_none.mp hp ▸ inv)
  | case2 pq visited reach c n rest hp hv ih =>
    intro inv
    rw [show dloop g B pq visited reach = dloop g B rest visited reach from by
      rw [dloop.eq_def, hp]; simp only [dif_pos hv]]
    exact ih (dinv_skip inv hp hv)
  | case3 pq visited reach c n rest hp hv hb ih =>
    intro inv
    exact absurd (inv.pq_le _ (popMin_mem hp)) (not_le.mpr hb)
  | case4 pq visited reach c n rest hp hv hb ih =>
    intro inv
    rw [show dloop g B pq visited reach =
        dloop g B (rest ++ (adj g n).filterMap (pushEntry B c (n :: visited)))
          (n :: visited) (reach ++ [(n, c)]) from by
      rw [dloop.eq_def, hp]; simp only [dif_neg hv, if_neg hb]]
    exact ih (dinv_expand hg inv hp hv hb)

/-- The initial state satisfies the loop invariant for a non-negative budget. -/
theorem dinv_init (g : List Edge) (o : String) (B : ℚ) (hB : 0 ≤ B) :
    DInv g o B [(0, o)] [] [] where
  pq_path e he := by
    simp only [List.mem_singleton] at he
    subst he
    exact HasPath.nil
  pq_le e he := by
    simp only [List.mem_singleton] at he
    subst he
    exact hB
  reach_path p hp := by simp at hp
  reach_min p hp := by simp at hp
  reach_le p hp := by simp at hp
  keys_vis := rfl
  vis_nodup := List.nodup_nil
  frontier p hp := by simp at hp
  origin_vis := Or.inr (List.mem_singleton.mpr rfl)

/-- Main correctness of the search for non-negative budgets. -/
theorem runDijkstra_good {g : List Edge} {o : String} {B : ℚ}
    (hg : ∀ e ∈ g, 0 ≤ e.cost) (hB : 0 ≤ B) :
    ReachGood g o B (runDijkstra g o B).1 :=
  dloop_reachGood hg _ _ _ (dinv_init g o B hB)

/-- With a negative budget the origin is popped, found over budget and
dropped: the result map is empty and only the origin was explored. -/
theorem runDijkstra_neg (g : List Edge) (o : String) (B : ℚ) (hB : B < 0) :
    runDijkstra g o B = ([], [o]) := by
  unfold runDijkstra
  have hpop : popMin [((0 : ℚ), o)] = some ((0, o), []) := rfl
  rw [dloop.eq_def, hpop]
  have hv : o ∉ ([] : List String) := by simp
  simp only [dif_neg hv, if_pos hB]
  rw [dloop.eq_def]
  rfl

/-- The count invariant is carried to the final state: the recorded keys are
exactly the visited nodes. -/
theorem dloop_keys_vis {g : List Edge} {B : ℚ} :
    ∀ pq visited reach, QInv B pq visited reach →
      ((dloop g B pq visited reach).1).map Prod.fst =
        ((dloop g B pq visited reach).2).reverse := by
  intro pq visited reach
  induction pq, visited, reach using dloop.induct g B with
  | case1 pq visited reach hp =>
    intro inv
    rw [show dloop g B pq visited reach = (reach, visited) from by rw [dloop.eq_def, hp]]
    exact inv.keys_vis
  | case2 pq visited reach c n rest hp hv ih =>
    intro inv
    rw [show dloop g B pq visited reach = dloop g B rest visited reach from by
      rw [dloop.eq_def, hp]; simp only [dif_pos hv]]
    exact ih ⟨fun e he => inv.pq_le e (popMin_rest_subset hp e he), inv.keys_vis⟩
  | case3 pq visited reach c n rest hp hv hb ih =>
    intro inv
    exact absurd (inv.pq_le _ (popMin_mem hp)) (not_le.mpr hb)
  | case4 pq visited reach c n rest hp hv hb ih =>
    intro inv
    rw [show dloop g B pq visited reach =
        dloop g B (rest ++ (adj g n).filterMap (pushEntry B c (n :: visited)))
          (n :: visited) (reach ++ [(n, c)]) from by
      rw [dloop.eq_def, hp]; simp only [dif_neg hv, if_neg hb]]
    refine ih ⟨?_, ?_⟩
    · intro e he
      rcases List.mem_append.mp he with hr | hpush
      · exact inv.pq_le e (popMin_rest_subset hp e hr)
      · obtain ⟨t, ht, _, hle, rfl⟩ := mem_pushes.mp hpush
        exact hle
    · rw [List.map_append, inv.keys_vis, List.reverse_cons]
      rfl

/-- For a non-negative budget the whole run records exactly the visited
nodes. -/
theorem runDijkstra_keys_vis {g : List Edge} {o : String} {B : ℚ} (hB : 0 ≤ B) :
    ((runDijkstra g o B).1).map Prod.fst = ((runDijkstra g o B).2).reverse := by
  unfold runDijkstra
  apply dloop_keys_vis
  exact ⟨fun e he => by simp only [List.mem_singleton] at he; subst he; exact hB, rfl⟩


/-- The per-segment reference list is sorted by (position, id). -/
theorem sortedRefs_sorted (coords : List (String × ℚ × ℚ)) (seg : Segment) :
    List.Sorted posLe (sortedRefs coords seg) := by
  unfold sortedRefs
  rcases seg.connectors with _ | items
  · simp
  · simp only
    split
    · simp
    · split
      · simp
      · exact List.sorted_insertionSort posLe _

/-- Telescoping sum over a sorted reference list: the kept sub-edge costs add
to K times the full position range divided by the speed (pairs with zero
delta are dropped and contribute nothing). -/
theorem span_cost_sum_aux (K : ℚ) (sp : ℚ) :
    ∀ l : List (ℚ × String), List.Sorted posLe l →
      (((l.zip l.tail).filterMap (spanOfPair K sp)).map Span.cost).sum =
        K * ((l.getLast?.map Prod.fst).getD 0 - (l.head?.map Prod.fst).getD 0) / sp := by
  intro l
  induction l with
  | nil => simp
  | cons x rest ih =>
    intro hs
    cases rest with
    | nil => simp [spanOfPair]
    | cons y rest2 =>
      have hs2 : List.Sorted posLe (y :: rest2) := hs.tail
      have hxy : posLe x y := List.rel_of_sorted_cons hs y (List.mem_cons_self y rest2)
      have ihs := ih hs2
      have hzip : ((x :: y :: rest2).zip (x :: y :: rest2).tail) =
          (x, y) :: ((y :: rest2).zip (y :: rest2).tail) := by
        simp [List.zip]
      rw [hzip, List.filterMap_cons]
      have hlast : ((x :: y :: rest2).getLast?.map Prod.fst).getD 0 =
          (((y :: rest2).getLast?.map Prod.fst).getD 0) := by
        rw [List.getLast?_cons_cons]
      rcases hxy with hlt | ⟨heq, _⟩
      · have hsp : spanOfPair K sp (x, y) =
            some ⟨x.2, y.2, K * (y.1 - x.1) / sp, K * (y.1 - x.1)⟩ := by
          unfold spanOfPair
          rw [if_pos hlt]
        rw [hsp, List.map_cons, List.sum_cons, ihs, hlast]
        simp only [List.head?_cons, Option.map_some', Option.getD_some]
        rw [div_add_div_same]
        congr 1
        ring
      · have hsp : spanOfPair K sp (x, y) = none := by
          unfold spanOfPair
          rw [if_neg (by rw [heq]; exact lt_irrefl _)]
        rw [hsp, ihs, hlast]
        simp only [List.head?_cons, Option.map_some', Option.getD_some]
        rw [heq]

/-- The sub-edge costs of one segment sum to length × (position range) ÷
speed over the sorted resolved reference list. -/
theorem segment_cost_sum (coords : List (String × ℚ × ℚ)) (speed : ℚ) (seg : Segment) :
    ((segmentSpans coords speed seg).map Span.cost).sum =
      seg.length_m * ((((sortedRefs coords seg).getLast?.map Prod.fst).getD 0) -
        (((sortedRefs coords seg).head?.map Prod.fst).getD 0)) / speed :=
  span_cost_sum_aux seg.length_m speed _ (sortedRefs_sorted coords seg)

/-- A segment's directed edges are its sub-edges in both orientations. -/
theorem mem_segmentEdges {coords : List (String × ℚ × ℚ)} {speed : ℚ} {seg : Segment}
    {e : Edge} :
    e ∈ segmentEdges coords speed seg ↔
      ∃ s ∈ segmentSpans coords speed seg,
        e = ⟨s.a, s.b, s.cost, s.sub_m⟩ ∨ e = ⟨s.b, s.a, s.cost, s.sub_m⟩ := by
  unfold segmentEdges
  rw [List.mem_flatMap]
  constructor
  · rintro ⟨s, hs, he⟩
    rcases List.mem_cons.mp he with h | h
    · exact ⟨s, hs, Or.inl h⟩
    · simp only [List.mem_singleton] at h
      exact ⟨s, hs, Or.inr h⟩
  · rintro ⟨s, hs, h | h⟩
    · exact ⟨s, hs, by rw [h]; exact List.mem_cons_self _ _⟩
    · exact ⟨s, hs, by rw [h]; exact List.mem_cons_of_mem _ (List.mem_singleton.mpr rfl)⟩

/-- A graph edge comes from some segment. -/
theorem mem_buildGraph {coords : List (String × ℚ × ℚ)} {speed : ℚ}
    {segs : List Segment} {e : Edge} :
    e ∈ buildGraph coords speed segs ↔ ∃ seg ∈ segs, e ∈ segmentEdges coords speed seg := by
  unfold buildGraph
  exact List.mem_flatMap

/-- Every edge of the built graph has its reverse in the graph. -/
theorem buildGraph_mirror {coords : List (String × ℚ × ℚ)} {speed : ℚ}
    {segs : List Segment} {e : Edge} (he : e ∈ buildGraph coords speed segs) :
    (⟨e.dst, e.src, e.cost, e.len⟩ : Edge) ∈ buildGraph coords speed segs := by
  obtain ⟨seg, hseg, hmem⟩ := mem_buildGraph.mp he
  obtain ⟨s, hs, h | h⟩ := mem_segmentEdges.mp hmem
  · exact mem_buildGraph.mpr ⟨seg, hseg, mem_segmentEdges.mpr ⟨s, hs, Or.inr (by rw [h])⟩⟩
  · exact mem_buildGraph.mpr ⟨seg, hseg, mem_segmentEdges.mpr ⟨s, hs, Or.inl (by rw [h])⟩⟩

/-- Adjacency membership unfolded to edge membership. -/
theorem mem_adj_iff {g : List Edge} {n : String} {t : String × ℚ × ℚ} :
    t ∈ adj g n ↔ (⟨n, t.1, t.2.1, t.2.2⟩ : Edge) ∈ g := by
  unfold adj
  rw [List.mem_map]
  constructor
  · rintro ⟨e, he, rfl⟩
    have hf := List.mem_filter.mp he
    have hsrc : e.src = n := by simpa using hf.2
    have hee : (⟨n, e.dst, e.cost, e.len⟩ : Edge) = e := by
      cases e; simp_all
    rw [hee]
    exact hf.1
  · intro he
    exact ⟨⟨n, t.1, t.2.1, t.2.2⟩, List.mem_filter.mpr ⟨he, by simp⟩, rfl⟩

/-- Symmetry of the built graph at adjacency level. -/
theorem adj_symm {coords : List (String × ℚ × ℚ)} {speed : ℚ} {segs : List Segment}
    {a b : String} {c l : ℚ}
    (h : (b, c, l) ∈ adj (buildGraph coords speed segs) a) :
    (a, c, l) ∈ adj (buildGraph coords speed segs) b := by
  rw [mem_adj_iff] at h ⊢
  exact buildGraph_mirror h

/-- What a kept pair tells about its sub-edge. -/
theorem spanOfPair_cases {length_m speed : ℚ} {pq : (ℚ × String) × (ℚ × String)}
    {s : Span} (h : spanOfPair length_m speed pq = some s) :
    pq.1.1 < pq.2.1 ∧ s = ⟨pq.1.2, pq.2.2, length_m * (pq.2.1 - pq.1.1) / speed,
      length_m * (pq.2.1 - pq.1.1)⟩ := by
  unfold spanOfPair at h
  split at h
  · simp only [Option.some.injEq] at h
    exact ⟨by assumption, h.symm⟩
  · simp at h

/-- A pair of the zip-with-tail is a consecutive pair of the list. -/
theorem mem_zip_tail {α : Type} :
    ∀ (l : List α) (p : α × α), p ∈ l.zip l.tail →
      ∃ l1 l2, l = l1 ++ p.1 :: p.2 :: l2 := by
  intro l
  induction l with
  | nil => intro p hp; simp at hp
  | cons x rest ih =>
    intro p hp
    cases rest with
    | nil => simp at hp
    | cons y rest2 =>
      have hzip : ((x :: y :: rest2).zip (x :: y :: rest2).tail) =
          (x, y) :: ((y :: rest2).zip (y :: rest2).tail) := by
        simp [List.zip]
      rw [hzip] at hp
      rcases List.mem_cons.mp hp with heq | hmem
      · refine ⟨[], rest2, ?_⟩
        rw [heq]
        rfl
      · obtain ⟨l1, l2, hdec⟩ := ih p hmem
        exact ⟨x :: l1, l2, by rw [List.cons_append, ← hdec]⟩

/-- With positive segment length and walking speed every sub-edge cost is
strictly positive. -/
theorem segmentSpans_cost_pos {coords : List (String × ℚ × ℚ)} {speed : ℚ}
    {seg : Segment} (hlen : 0 < seg.length_m) (hspeed : 0 < speed) :
    ∀ s ∈ segmentSpans coords speed seg, 0 < s.cost := by
  intro s hs
  unfold segmentSpans at hs
  obtain ⟨pq, _, hsp⟩ := List.mem_filterMap.mp hs
  obtain ⟨hlt, rfl⟩ := spanOfPair_cases hsp
  exact div_pos (mul_pos hlen (sub_pos.mpr hlt)) hspeed

/-- When a segment's resolved connector ids are pairwise distinct, none of
its sub-edges is a self-loop. -/
theorem segmentSpans_no_self {coords : List (String × ℚ × ℚ)} {speed : ℚ}
    {seg : Segment} (hnd : ((sortedRefs coords seg).map Prod.snd).Nodup) :
    ∀ s ∈ segmentSpans coords speed seg, s.a ≠ s.b := by
  intro s hs
  unfold segmentSpans at hs
  obtain ⟨pq, hpq, hsp⟩ := List.mem_filterMap.mp hs
  obtain ⟨_, rfl⟩ := spanOfPair_cases hsp
  obtain ⟨l1, l2, hdec⟩ := mem_zip_tail _ pq hpq
  rw [hdec] at hnd
  simp only [List.map_append, List.map_cons] at hnd
  have h2 := hnd.of_append_right
  simp only [List.nodup_cons, List.mem_cons] at h2
  intro h
  have h3 : pq.1.2 = pq.2.2 := h
  exact h2.1 (Or.inl h3)


/-- Pairwise transfer through filterMap: kept images of related elements are
related. -/
theorem pairwise_filterMap_trans {α β : Type} {R : α → α → Prop} {S : β → β → Prop}
    {f : α → Option β} :
    ∀ {l : List α}, List.Pairwise R l →
      (∀ a b x y, R a b → f a = some x → f b = some y → S x y) →
      List.Pairwise S (l.filterMap f) := by
  intro l
  induction l with
  | nil => intro _ _; simp
  | cons a l ih =>
    intro hpw hf
    obtain ⟨hhead, htail⟩ := List.pairwise_cons.mp hpw
    rw [List.filterMap_cons]
    rcases hfa : f a with _ | x
    · exact ih htail hf
    · refine List.Pairwise.cons ?_ (ih htail hf)
      intro y hy
      obtain ⟨b, hb, hfb⟩ := List.mem_filterMap.mp hy
      exact hf a b x y (hhead b hb) hfa hfb

/-- The processed threshold list is strictly increasing. -/
theorem bandList_lt (B : ℚ) : List.Pairwise (fun a b : ℤ => a < b) (bandList B) := by
  unfold bandList
  simp only
  have hbase : List.Pairwise (fun a b : ℤ => a < b)
      (([5, 10, 15, 20] : List ℤ).filter (fun b => decide ((b * 60 : ℤ) ≤ B))) :=
    List.Pairwise.sublist (List.filter_sublist _) (by decide)
  split
  · exact hbase
  case isFalse hnm =>
    have hnd : (([5, 10, 15, 20] : List ℤ).filter
        (fun b => decide ((b * 60 : ℤ) ≤ B)) ++ [ratTrunc (B / 60)]).Nodup := by
      rw [List.nodup_append]
      refine ⟨List.Nodup.sublist (List.filter_sublist _) (by decide),
        List.nodup_singleton _, ?_⟩
      intro a ha hb
      simp only [List.mem_singleton] at hb
      subst hb
      exact hnm ha
    have hsorted := List.sorted_insertionSort (fun a b : ℤ => a ≤ b)
      (([5, 10, 15, 20] : List ℤ).filter (fun b => decide ((b * 60 : ℤ) ≤ B)) ++
        [ratTrunc (B / 60)])
    have hperm := List.perm_insertionSort (fun a b : ℤ => a ≤ b)
      (([5, 10, 15, 20] : List ℤ).filter (fun b => decide ((b * 60 : ℤ) ≤ B)) ++
        [ratTrunc (B / 60)])
    have hnd2 := (hperm.nodup_iff).mpr hnd
    exact List.Sorted.lt_of_le hsorted hnd2

/-- What a produced band record contains. -/
theorem bandFor_some {hull : List (ℚ × ℚ) → Option (String × ℚ)} {pts : List RPoint}
    {bm : ℤ} {b : Band} (h : bandFor hull pts bm = some b) :
    b.band_min = bm ∧ b.band_s = bm * 60 ∧ b.node_count = (bandSel pts bm).length ∧
    ¬ (bandSel pts bm).length < 3 ∧
    ((∃ gj am, hull ((bandSel pts bm).map (fun p => (p.lng, p.lat))) = some (gj, am) ∧
        b.geojson = some gj ∧ b.area_m2 = am ∧ b.area_km2 = am / 1000000 ∧
        b.area_ha = am / 10000) ∨
      (hull ((bandSel pts bm).map (fun p => (p.lng, p.lat))) = none ∧
        b.geojson = none ∧ b.area_m2 = 0 ∧ b.area_km2 = 0 ∧ b.area_ha = 0)) := by
  unfold bandFor at h
  simp only at h
  split at h
  · simp at h
  case isFalse h3 =>
    rcases hh : hull ((bandSel pts bm).map (fun p => (p.lng, p.lat))) with _ | ga
    · rw [hh] at h
      simp only [Option.some.injEq] at h
      subst h
      exact ⟨rfl, rfl, rfl, h3, Or.inr ⟨hh, rfl, rfl, rfl, rfl⟩⟩
    · rw [hh] at h
      simp only [Option.some.injEq] at h
      subst h
      exact ⟨rfl, rfl, rfl, h3, Or.inl ⟨ga.1, ga.2, by rw [hh], rfl, rfl, rfl, rfl⟩⟩

/-- Band membership unfolded. -/
theorem mem_isochroneBands {hull : List (ℚ × ℚ) → Option (String × ℚ)}
    {pts : List RPoint} {B : ℚ} {b : Band} :
    b ∈ isochroneBands hull pts B ↔
      ∃ bm ∈ bandList B, bandFor hull pts bm = some b := by
  unfold isochroneBands
  exact List.mem_filterMap

/-- Smaller thresholds select sublists. -/
theorem bandSel_sublist (pts : List RPoint) {bm bm2 : ℤ} (h : bm ≤ bm2) :
    (bandSel pts bm).Sublist (bandSel pts bm2) := by
  unfold bandSel
  apply List.monotone_filter_right
  intro p hp
  simp only [decide_eq_true_eq] at hp ⊢
  refine le_trans hp ?_
  have : (bm * 60 : ℤ) ≤ bm2 * 60 := by linarith
  exact_mod_cast this

/-- The produced band list is pairwise related by thresholds, node sets,
node counts and (conditionally) areas. -/
theorem bands_pairwise (hull : List (ℚ × ℚ) → Option (String × ℚ)) (pts : List RPoint)
    (B : ℚ) : List.Pairwise (bandRel hull pts) (isochroneBands hull pts B) := by
  unfold isochroneBands
  refine pairwise_filterMap_trans (bandList_lt B) ?_
  intro bm bm2 x y hlt hfx hfy
  obtain ⟨hxm, _, hxc, _, hxgeo⟩ := bandFor_some hfx
  obtain ⟨hym, _, hyc, _, hygeo⟩ := bandFor_some hfy
  have hsub : (bandSel pts bm).Sublist (bandSel pts bm2) := bandSel_sublist pts hlt.le
  refine ⟨by rw [hxm, hym]; exact hlt, ?_, ?_, ?_⟩
  · intro p hp
    rw [hym]
    rw [hxm] at hp
    exact hsub.subset hp
  · rw [hxc, hyc]
    exact hsub.length_le
  · intro hmono hxs hys
    rcases hxgeo with ⟨gjx, amx, hhx, _, hax, _, _⟩ | ⟨_, hgx, _, _, _⟩
    · rcases hygeo with ⟨gjy, amy, hhy, _, hay, _, _⟩ | ⟨_, hgy, _, _, _⟩
      · rw [hax, hay]
        exact hmono _ _ _ _ _ _ (hsub.map _) hhx hhy
      · rw [hgy] at hys
        simp at hys
    · rw [hgx] at hxs
      simp at hxs

/-- Along a pairwise-related list, every element is related to the last. -/
theorem pairwise_rel_getLast {α : Type} {R : α → α → Prop} :
    ∀ {l : List α}, List.Pairwise R l → ∀ {m}, l.getLast? = some m →
      ∀ b ∈ l, b = m ∨ R b m := by
  intro l
  induction l with
  | nil => intro _ m hm; simp at hm
  | cons x xs ih =>
    intro hpw m hm b hb
    cases xs with
    | nil =>
      simp only [List.getLast?_singleton, Option.some.injEq] at hm
      subst hm
      simp only [List.mem_singleton] at hb
      exact Or.inl hb
    | cons y rest =>
      rw [List.getLast?_cons_cons] at hm
      rcases List.mem_cons.mp hb with rfl | hb2
      · right
        exact List.rel_of_pairwise_cons hpw (List.mem_of_getLast?_eq_some hm)
      · exact ih hpw.of_cons hm b hb2

/-- Under the service contract, every recorded band area is non-negative. -/
theorem bands_area_nonneg {hull : List (ℚ × ℚ) → Option (String × ℚ)}
    {pts : List RPoint} {B : ℚ}
    (hc : ∀ pl gj am, hull pl = some (gj, am) → 0 ≤ am) :
    ∀ b ∈ isochroneBands hull pts B, 0 ≤ b.area_m2 ∧ 0 ≤ b.area_km2 := by
  intro b hb
  obtain ⟨bm, _, hf⟩ := mem_isochroneBands.mp hb
  obtain ⟨_, _, _, _, hgeo⟩ := bandFor_some hf
  rcases hgeo with ⟨gj, am, hh, _, ham, hkm, _⟩ | ⟨_, _, ham, hkm, _⟩
  · have := hc _ _ _ hh
    constructor
    · rw [ham]; exact this
    · rw [hkm]; positivity
  · rw [ham, hkm]
    exact ⟨le_refl 0, le_refl 0⟩

/-- The running-minimum scan returns either the seed (when nothing beats it)
or the first strict improvement over everything before it. -/
theorem findOriginGo_spec (d : String × ℝ × ℝ → ℝ) :
    ∀ (l : List (String × ℝ × ℝ)) (best : String × ℝ),
      (findOriginGo d best l = best ∧ ∀ c ∈ l, best.2 ≤ d c) ∨
      (∃ l1 c l2, l = l1 ++ c :: l2 ∧ findOriginGo d best l = (c.1, d c) ∧
        d c < best.2 ∧ (∀ c2 ∈ l1, d c < d c2) ∧ (∀ c2 ∈ l2, d c ≤ d c2)) := by
  intro l
  induction l with
  | nil =>
    intro best
    left
    exact ⟨rfl, fun c hc => absurd hc (List.not_mem_nil c)⟩
  | cons c rest ih =>
    intro best
    by_cases hc : d c < best.2
    · rw [show findOriginGo d best (c :: rest) = findOriginGo d (c.1, d c) rest from by
        rw [findOriginGo]; rw [if_pos hc]]
      rcases ih (c.1, d c) with ⟨heq, hall⟩ | ⟨l1, c2, l2, hdec, hres, hlt, hpre, hpost⟩
      · right
        exact ⟨[], c, rest, rfl, heq, hc, fun c2 hc2 => absurd hc2 (List.not_mem_nil c2),
          fun c2 hc2 => hall c2 hc2⟩
      · right
        refine ⟨c :: l1, c2, l2, by rw [hdec]; rfl, hres, lt_trans hlt hc, ?_, hpost⟩
        intro c3 hc3
        rcases List.mem_cons.mp hc3 with rfl | hc32
        · exact hlt
        · exact hpre c3 hc32
    · rw [show findOriginGo d best (c :: rest) = findOriginGo d best rest from by
        rw [findOriginGo]; rw [if_neg hc]]
      rcases ih best with ⟨heq, hall⟩ | ⟨l1, c2, l2, hdec, hres, hlt, hpre, hpost⟩
      · left
        refine ⟨heq, ?_⟩
        intro c2 hc2
        rcases List.mem_cons.mp hc2 with rfl | hc22
        · exact le_of_not_lt hc
        · exact hall c2 hc22
      · right
        refine ⟨c :: l1, c2, l2, by rw [hdec]; rfl, hres, hlt, ?_, hpost⟩
        intro c3 hc3
        rcases List.mem_cons.mp hc3 with rfl | hc32
        · exact lt_of_lt_of_le hlt (le_of_not_lt hc)
        · exact hpre c3 hc32

/-- Full specification of the Origin Locator: it fails exactly on the empty
table, and otherwise returns the first connector attaining the minimal
haversine distance (strictly closer than everything before it, at most as
close as everything after it), together with that distance. -/
theorem findOrigin_spec (qlat qlng : ℝ) (table : List (String × ℝ × ℝ)) :
    (findOrigin qlat qlng table = none ↔ table = []) ∧
    (∀ res, findOrigin qlat qlng table = some res →
      ∃ l1 c l2, table = l1 ++ c :: l2 ∧ res.1 = c.1 ∧
        res.2 = haversineM qlat qlng c.2.1 c.2.2 ∧
        (∀ c2 ∈ l1, res.2 < haversineM qlat qlng c2.2.1 c2.2.2) ∧
        (∀ c2 ∈ l2, res.2 ≤ haversineM qlat qlng c2.2.1 c2.2.2) ∧
        (∀ c2 ∈ table, res.2 ≤ haversineM qlat qlng c2.2.1 c2.2.2)) := by
  set d : String × ℝ × ℝ → ℝ := fun c => haversineM qlat qlng c.2.1 c.2.2 with hd
  cases table with
  | nil =>
    constructor
    · simp [findOrigin, findOriginAux]
    · intro res hres
      simp [findOrigin, findOriginAux] at hres
  | cons c rest =>
    constructor
    · simp [findOrigin, findOriginAux]
    · intro res hres
      have hres2 : res = findOriginGo d (c.1, d c) rest := by
        simpa [findOrigin, findOriginAux] using hres.symm
      rcases findOriginGo_spec d rest (c.1, d c) with ⟨heq, hall⟩ |
        ⟨l1, c2, l2, hdec, hgo, hlt, hpre, hpost⟩
      · refine ⟨[], c, rest, rfl, ?_, ?_, ?_, ?_, ?_⟩
        · rw [hres2, heq]
        · rw [hres2, heq]
        · intro c2 hc2
          exact absurd hc2 (List.not_mem_nil c2)
        · intro c2 hc2
          rw [hres2, heq]
          exact hall c2 hc2
        · intro c2 hc2
          rw [hres2, heq]
          rcases List.mem_cons.mp hc2 with rfl | hc22
          · exact le_refl _
          · exact hall c2 hc22
      · refine ⟨c :: l1, c2, l2, by rw [hdec]; rfl, ?_, ?_, ?_, ?_, ?_⟩
        · rw [hres2, hgo]
        · rw [hres2, hgo]
        · intro c3 hc3
          rw [hres2, hgo]
          rcases List.mem_cons.mp hc3 with rfl | hc32
          · exact hlt
          · exact hpre c3 hc32
        · intro c3 hc3
          rw [hres2, hgo]
          exact hpost c3 hc3
        · intro c3 hc3
          rw [hres2, hgo]
          rcases List.mem_cons.mp hc3 with rfl | hc32
          · exact le_of_lt hlt
          · rw [hdec] at hc32
            rcases List.mem_append.mp hc32 with h1 | h2
            · exact le_of_lt (hpre c3 h1)
            · rcases List.mem_cons.mp h2 with rfl | h3
              · exact le_refl _
              · exact hpost c3 h3


/-- Concrete threshold list for the witnesses: at a 900 s budget the bands
are 5, 10 and 15 minutes. -/
theorem bandList_900 : bandList 900 = [5, 10, 15] := by
  have hq : ((900 : ℚ) / 60) = 15 := by norm_num
  unfold bandList ratTrunc
  rw [hq]
  norm_num [List.filter_cons, Rat.num_ofNat, Rat.den_ofNat]

/-- C1: for every spec-conformant graph (non-negative sub-edge costs, as the
data-model invariant guarantees), origin connector and walk budget, the
search returns a map whose keys are exactly the connectors whose minimal
cumulative cost from the origin is at most the budget — a node at exactly
the budget included, since the guard is `candidate ≤ budget` — and maps each
to that minimal cost.  (For a negative budget both sides are empty.) -/
theorem claim_C1_dijkstra_minimal_cost_map (g : List Edge) (o : String) (B : ℚ)
    (hg : ∀ e ∈ g, 0 ≤ e.cost) : C1Concl g o B := by
  by_cases hB : 0 ≤ B
  · exact runDijkstra_good hg hB
  · unfold C1Concl ReachGood
    rw [runDijkstra_neg g o B (lt_of_not_ge hB)]
    refine ⟨?_, ?_, ?_⟩
    · intro v cv hl
      simp [lookupCost] at hl
    · intro v cv h hle
      exfalso
      have h0 := hasPath_nonneg hg h
      have hneg : B < 0 := lt_of_not_ge hB
      linarith
    · simp

/-- Witness for C1 on a concrete two-node graph with budget 70. -/
theorem claim_C1_witness : (∀ e ∈ wDij, 0 ≤ e.cost) ∧ C1Concl wDij "A" 70 :=
  ⟨by norm_num [wDij], claim_C1_dijkstra_minimal_cost_map wDij "A" 70 (by norm_num [wDij])⟩

/-- C2 (amended): the sub-edge costs of a processed segment sum to the
segment length × (largest resolved position − smallest resolved position) ÷
walking speed; this equals length ÷ speed exactly when the resolved positions
span 0.0 to 1.0, which the code does not enforce. -/
theorem claim_C2_segment_cost_sum (coords : List (String × ℚ × ℚ)) (speed : ℚ)
    (seg : Segment) :
    ((segmentSpans coords speed seg).map Span.cost).sum =
      seg.length_m * ((((sortedRefs coords seg).getLast?.map Prod.fst).getD 0) -
        (((sortedRefs coords seg).head?.map Prod.fst).getD 0)) / speed ∧
    ((((sortedRefs coords seg).head?.map Prod.fst).getD 0) = 0 →
      (((sortedRefs coords seg).getLast?.map Prod.fst).getD 0) = 1 →
      ((segmentSpans coords speed seg).map Span.cost).sum = seg.length_m / speed) := by
  refine ⟨segment_cost_sum coords speed seg, ?_⟩
  intro h0 h1
  rw [segment_cost_sum coords speed seg, h0, h1]
  norm_num

/-- Counterexample to C2 as stated: a 100 m segment whose two resolved
connectors sit at positions 0 and 1/2 generates one sub-edge of cost 50 s at
speed 1 m/s, not 100 s = length ÷ speed. -/
theorem claim_C2_counterexample :
    ((segmentSpans cexCoords 1 cexSegHalf).map Span.cost).sum ≠
      cexSegHalf.length_m / 1 := by
  norm_num [segmentSpans, sortedRefs, cexCoords, cexSegHalf, resolveItem,
    List.insertionSort, List.orderedInsert, posLe, spanOfPair, List.filterMap_cons,
    List.contains_cons]

/-- C3 (amended): the built graph is undirected; its sub-edge costs are
strictly positive provided the walking speed and every segment length are
positive; and it has no self-loops provided no segment lists the same
connector id at two distinct resolved positions.  Without those provisos the
code emits zero-cost edges (zero-length segment) and self-loop entries (the
same id at two positions), as the counterexample shows. -/
theorem claim_C3_graph_invariants (coords : List (String × ℚ × ℚ)) (speed : ℚ)
    (segs : List Segment) :
    (∀ e ∈ buildGraph coords speed segs,
      (⟨e.dst, e.src, e.cost, e.len⟩ : Edge) ∈ buildGraph coords speed segs) ∧
    ((0 < speed ∧ ∀ seg ∈ segs, 0 < seg.length_m) →
      ∀ e ∈ buildGraph coords speed segs, 0 < e.cost) ∧
    ((∀ seg ∈ segs, ((sortedRefs coords seg).map Prod.snd).Nodup) →
      ∀ e ∈ buildGraph coords speed segs, e.src ≠ e.dst) := by
  refine ⟨fun e he => buildGraph_mirror he, ?_, ?_⟩
  · rintro ⟨hsp, hlen⟩ e he
    obtain ⟨seg, hseg, hmem⟩ := mem_buildGraph.mp he
    obtain ⟨sp, hs, h | h⟩ := mem_segmentEdges.mp hmem
    · have hpos := segmentSpans_cost_pos (hlen seg hseg) hsp sp hs
      rw [h]; exact hpos
    · have hpos := segmentSpans_cost_pos (hlen seg hseg) hsp sp hs
      rw [h]; exact hpos
  · intro hnd e he
    obtain ⟨seg, hseg, hmem⟩ := mem_buildGraph.mp he
    obtain ⟨sp, hs, h | h⟩ := mem_segmentEdges.mp hmem
    · have hne := segmentSpans_no_self (hnd seg hseg) sp hs
      rw [h]; exact hne
    · have hne := segmentSpans_no_self (hnd seg hseg) sp hs
      rw [h]; exact fun hx => hne hx.symm

/-- Counterexample to C3 as stated: with a segment listing connector A at
positions 0 and 1/2 the graph holds a self-loop, and with a zero-length
segment it holds a zero-cost edge. -/
theorem claim_C3_counterexample :
    (∃ e ∈ buildGraph cexCoords 1 [cexSegLoop, cexSegZero], e.src = e.dst) ∧
    (∃ e ∈ buildGraph cexCoords 1 [cexSegLoop, cexSegZero], e.cost = 0) := by
  have hG : buildGraph cexCoords 1 [cexSegLoop, cexSegZero] =
      [⟨"A", "A", 50, 50⟩, ⟨"A", "A", 50, 50⟩, ⟨"A", "B", 0, 0⟩, ⟨"B", "A", 0, 0⟩] := by
    norm_num [buildGraph, segmentEdges, segmentSpans, sortedRefs, resolveItem,
      List.insertionSort, List.orderedInsert, posLe, spanOfPair, cexCoords,
      cexSegLoop, cexSegZero, List.filterMap_cons, List.contains_cons]
  rw [hG]
  exact ⟨⟨⟨"A", "A", 50, 50⟩, by simp, rfl⟩, ⟨⟨"A", "B", 0, 0⟩, by simp, rfl⟩⟩

/-- C4: the built graph is symmetric: every adjacency entry (b, cost, len) of
a is matched by the entry (a, cost, len) of b, because the pair loop inserts
both directions. -/
theorem claim_C4_graph_symmetric (coords : List (String × ℚ × ℚ)) (speed : ℚ)
    (segs : List Segment) (a b : String) (c l : ℚ)
    (h : (b, c, l) ∈ adj (buildGraph coords speed segs) a) :
    (a, c, l) ∈ adj (buildGraph coords speed segs) b :=
  adj_symm h

/-- Witness for C4 on a single 100 m segment between A and B. -/
theorem claim_C4_witness :
    ("B", (100 : ℚ), (100 : ℚ)) ∈ adj (buildGraph cexCoords 1 [wSeg]) "A" ∧
    ("A", (100 : ℚ), (100 : ℚ)) ∈ adj (buildGraph cexCoords 1 [wSeg]) "B" :=
  ⟨by norm_num [adj, buildGraph, segmentEdges, segmentSpans, sortedRefs, resolveItem,
      List.insertionSort, List.orderedInsert, posLe, spanOfPair, cexCoords, wSeg,
      List.filterMap_cons, List.contains_cons, List.filter_cons],
   claim_C4_graph_symmetric cexCoords 1 [wSeg] "A" "B" 100 100
     (by norm_num [adj, buildGraph, segmentEdges, segmentSpans, sortedRefs, resolveItem,
       List.insertionSort, List.orderedInsert, posLe, spanOfPair, cexCoords, wSeg,
       List.filterMap_cons, List.contains_cons, List.filter_cons])⟩

/-- C5: for budgets B1 < B2 over a spec-conformant graph, every connector
reachable at B1 is reachable at B2. -/
theorem claim_C5_budget_monotone (g : List Edge) (o : String) (B1 B2 : ℚ)
    (hg : ∀ e ∈ g, 0 ≤ e.cost) (h12 : B1 < B2) : C5Concl g o B1 B2 := by
  intro v hv
  by_cases hB1 : 0 ≤ B1
  · obtain ⟨sound1, _, _⟩ := runDijkstra_good hg hB1 (o := o)
    obtain ⟨cv, hcv⟩ := Option.isSome_iff_exists.mp hv
    obtain ⟨hpath, _, hle⟩ := sound1 v cv hcv
    have hB2 : (0 : ℚ) ≤ B2 := le_trans hB1 (le_of_lt h12)
    obtain ⟨_, complete2, _⟩ := runDijkstra_good hg hB2 (o := o)
    exact complete2 v cv hpath (le_trans hle (le_of_lt h12))
  · rw [runDijkstra_neg g o B1 (lt_of_not_ge hB1)] at hv
    simp [lookupCost] at hv

/-- Witness for C5 on a concrete graph with budgets 50 < 70. -/
theorem claim_C5_witness :
    (∀ e ∈ wDij, 0 ≤ e.cost) ∧ (50 : ℚ) < 70 ∧ C5Concl wDij "A" 50 70 :=
  ⟨by norm_num [wDij], by norm_num,
   claim_C5_budget_monotone wDij "A" 50 70 (by norm_num [wDij]) (by norm_num)⟩

/-- C6: the Origin Locator fails exactly when the connector table is empty,
and on a non-empty table returns a connector of minimal haversine distance
(Earth radius 6,371,000 m) to the query point together with that distance,
distance ties broken by input iteration order (the strict `<` update keeps
the earliest minimum). -/
theorem claim_C6_origin_locator (qlat qlng : ℝ) (table : List (String × ℝ × ℝ)) :
    (findOrigin qlat qlng table = none ↔ table = []) ∧
    (∀ res, findOrigin qlat qlng table = some res →
      ∃ l1 c l2, table = l1 ++ c :: l2 ∧ res.1 = c.1 ∧
        res.2 = haversineM qlat qlng c.2.1 c.2.2 ∧
        (∀ c2 ∈ l1, res.2 < haversineM qlat qlng c2.2.1 c2.2.2) ∧
        (∀ c2 ∈ l2, res.2 ≤ haversineM qlat qlng c2.2.1 c2.2.2) ∧
        (∀ c2 ∈ table, res.2 ≤ haversineM qlat qlng c2.2.1 c2.2.2)) :=
  findOrigin_spec qlat qlng table

/-- C7: a threshold selecting fewer than 3 reachable points produces no band
record; a geometry failure on a 3-or-more-point selection still produces a
record with null polygon and zero area; and every band is computed from its
own threshold alone, so one failure leaves the remaining bands intact. -/
theorem claim_C7_band_errors (hull : List (ℚ × ℚ) → Option (String × ℚ))
    (pts : List RPoint) (B : ℚ) (bm : ℤ) (hbm : bm ∈ bandList B) :
    C7Concl hull pts B bm := by
  refine ⟨?_, ?_, ?_, ?_⟩
  · intro h3 b hb hbmin
    obtain ⟨bm2, _, hf⟩ := mem_isochroneBands.mp hb
    obtain ⟨hbmin2, _, _, hn3, _⟩ := bandFor_some hf
    rw [hbmin] at hbmin2
    rw [← hbmin2] at hn3
    exact hn3 h3
  · intro h3 hnone
    have hf : bandFor hull pts bm =
        some ⟨bm, bm * 60, (bandSel pts bm).length, 0, 0, 0, none⟩ := by
      unfold bandFor
      simp only
      rw [if_neg h3, hnone]
    exact ⟨_, mem_isochroneBands.mpr ⟨bm, hbm, hf⟩, rfl, rfl, rfl, rfl, rfl⟩
  · intro bm2 _ hfn b hb hbmin
    obtain ⟨bm3, _, hf⟩ := mem_isochroneBands.mp hb
    obtain ⟨hbmin3, _⟩ := bandFor_some hf
    rw [hbmin] at hbmin3
    rw [← hbmin3] at hf
    rw [hf] at hfn
    exact Option.noConfusion hfn
  · intro bm2 hbm2 b hf
    exact mem_isochroneBands.mpr ⟨bm2, hbm2, hf⟩

/-- Witness for C7 at threshold 15 of a 900 s budget. -/
theorem claim_C7_witness : (15 : ℤ) ∈ bandList 900 ∧ C7Concl whull wpts 900 15 := by
  have hmem : (15 : ℤ) ∈ bandList 900 := by rw [bandList_900]; simp
  exact ⟨hmem, claim_C7_band_errors whull wpts 900 15 hmem⟩

/-- C8: the pedshed ratio is the largest-threshold band's km² area divided by
the theoretical circle area π × walkRange², is 0.0 when the circle area is 0
or no band exists, and is non-negative whenever the geometry service reports
non-negative areas; the computation is a pure function of its inputs. -/
theorem claim_C8_pedshed (hull : List (ℚ × ℚ) → Option (String × ℚ))
    (pts : List RPoint) (B : ℚ) (r : ℝ) : C8Concl hull pts B r := by
  refine ⟨?_, ?_, ?_, ?_⟩
  · intro hemp
    unfold isochroneAreaKm2 pedshed_ratio
    rw [hemp]
    simp only [List.getLast?_nil, Option.map_none', Option.getD_none, Rat.cast_zero]
    split
    · exact zero_div _
    · rfl
  · intro hc
    unfold pedshed_ratio
    rw [hc]
    simp
  · intro hne
    have hsome : ((isochroneBands hull pts B).getLast?).isSome := by
      rw [List.getLast?_isSome]
      exact hne
    obtain ⟨bmax, hlast⟩ := Option.isSome_iff_exists.mp hsome
    refine ⟨bmax, hlast, ?_, ?_⟩
    · intro b hb
      have hpw := (bands_pairwise hull pts B).imp
        (fun h => (h : bandRel hull pts _ _).1)
      rcases pairwise_rel_getLast hpw hlast b hb with rfl | hlt
      · exact le_refl _
      · exact le_of_lt hlt
    · intro hpos
      unfold pedshed_ratio isochroneAreaKm2
      rw [if_pos hpos, hlast]
      simp
  · intro hc
    unfold pedshed_ratio
    split
    case isTrue hpos =>
      apply div_nonneg
      · unfold isochroneAreaKm2
        rcases hlast : (isochroneBands hull pts B).getLast? with _ | bmax
        · simp
        · simp only [Option.map_some', Option.getD_some]
          have hbm : bmax ∈ isochroneBands hull pts B :=
            List.mem_of_getLast?_eq_some hlast
          exact_mod_cast (bands_area_nonneg hc bmax hbm).2
      · exact le_of_lt hpos
    case isFalse => exact le_refl 0

/-- C9 (amended): band thresholds are strictly increasing, each band's node
set contains every smaller band's node set, node counts are the selection
sizes and non-decreasing; areas are non-decreasing provided every produced
band's geometry call succeeded and the geometry service is monotone under
point-set inclusion (with a failed call recorded as zero area, monotonicity
of areas fails, as the counterexample shows). -/
theorem claim_C9_band_ordering (hull : List (ℚ × ℚ) → Option (String × ℚ))
    (pts : List RPoint) (B : ℚ) : C9Concl hull pts B := by
  have hpw := bands_pairwise hull pts B
  refine ⟨?_, ?_, ?_, ?_, ?_⟩
  · exact hpw.imp (fun h => h.1)
  · intro b hb
    obtain ⟨bm, _, hf⟩ := mem_isochroneBands.mp hb
    obtain ⟨hm, _, hc, _⟩ := bandFor_some hf
    rw [hc, hm]
  · exact hpw.imp (fun h => h.2.1)
  · exact hpw.imp (fun h => h.2.2.1)
  · intro hmono hsucc
    exact List.Pairwise.imp_of_mem
      (fun ha hb h => h.2.2.2 hmono (hsucc _ ha) (hsucc _ hb)) hpw

/-- Counterexample to C9 as stated: with a geometry oracle failing on more
than 3 points, the 5 min band records area 100 and the 10 min band records
area 0, so recorded areas are not non-decreasing. -/
theorem claim_C9_counterexample :
    ¬ List.Pairwise (fun x y : Band => x.area_m2 ≤ y.area_m2)
      (isochroneBands cexHull cexPts 900) := by
  have hmap : (isochroneBands cexHull cexPts 900).map Band.area_m2 = [100, 0, 0] := by
    rw [isochroneBands, bandList_900]
    norm_num [bandFor, bandSel, cexHull, cexPts, List.filterMap_cons, List.filter_cons]
  intro h
  have h2 : List.Pairwise (fun a b : ℚ => a ≤ b)
      ((isochroneBands cexHull cexPts 900).map Band.area_m2) :=
    (List.pairwise_map).mpr h
  rw [hmap] at h2
  have h3 := List.rel_of_pairwise_cons h2 (List.mem_cons_self 0 [0])
  norm_num at h3

/-- C10: for a non-negative budget every queue entry is within budget (the
seed has cost 0 and every push is guarded), so the over-budget skip after a
pop never fires: every first-popped node is recorded, the visited set equals
the recorded key set, and the diagnostic explored count equals the number of
reachable nodes. -/
theorem claim_C10_explored_equals_reachable (g : List Edge) (o : String) (B : ℚ)
    (hB : 0 ≤ B) : C10Concl g o B := by
  have hk := runDijkstra_keys_vis (g := g) (o := o) hB
  constructor
  · have h1 : ((runDijkstra g o B).1.map Prod.fst).length =
        ((runDijkstra g o B).2.reverse).length := by rw [hk]
    rw [List.length_map, List.length_reverse] at h1
    exact h1.symm
  · intro n
    rw [hk, List.mem_reverse]

/-- Witness for C10 on a concrete graph with budget 70. -/
theorem claim_C10_witness : (0 : ℚ) ≤ 70 ∧ C10Concl wDij "A" 70 :=
  ⟨by norm_num, claim_C10_explored_equals_reachable wDij "A" 70 (by norm_num)⟩


end Chrono
